import Mathlib

/-!
Verification development for the polynomial regression tree in
`equadratures/polytree.py`.

The tree-construction and prediction engine is embedded shallowly:

* feature values, thresholds and losses are rationals (`ℚ`), standing in for
  the floating-point values of the source; comparisons and the weighted-loss
  arithmetic are embedded exactly as written;
* the external least-squares polynomial fit (`Parameter`/`Basis`/`Poly` with
  `set_model` and the mean-squared error of `get_polyfit`, lines 160-177 of
  `polytree.py`, an external collaborator per spec §6) is a parameter
  `FitOracle P` returning either `(mse, model)` or a failure, since the
  source has no `try`/`except` a raised fit error simply propagates;
* the shared mutable counter `container["index_node_global"]` is threaded
  explicitly; note that the source increments it once inside `_fit_poly`
  (line 173) and once more inside `_create_node` (line 199), so the counter
  advances on every fit call, which this embedding reproduces;
* the recursion of `_split_traverse_node` is driven by explicit fuel; the
  source recursion terminates because `_splitter` refuses to split once
  `depth >= max_depth`, so fuel `max_depth + 1` at depth `0` is never
  exhausted.
-/

namespace PolyTreeSpec

/-- One row of the training input `X` (a point in feature space). -/
abbrev Row : Type := List ℚ

/-- Outcome of the external least-squares fit: the `Poly` constructor or
`set_model` can raise on an ill-conditioned problem. -/
inductive FitFailure where
  | fitFail
  deriving DecidableEq

deriving instance DecidableEq for Except

/-- The external PolynomialFitter collaborator (spec §6): rows and outputs in,
`(mse, model)` out, or a failure.  The model type `P` is abstract. -/
def FitOracle (P : Type) : Type := List Row → List ℚ → Except FitFailure (ℚ × P)

/-- Search strategy (`self.search`); the constructor validates nothing, the
string is checked inside `_splitter` (line 109-118).  An inductive type makes
the unknown-string branch unrepresentable. -/
inductive SearchKind where
  | exhaustive
  | uniform
  deriving DecidableEq

/-- Construction configuration of `PolyTree.__init__` (the fields consumed by
the embedded engine; `order`, `basis` and `logging` only parametrise the
external fit and the diagnostic log). -/
structure Config where
  max_depth : ℕ
  min_samples_leaf : ℕ
  search : SearchKind
  samples : ℕ

/-- `_fit_poly` (lines 158-178): bumps the shared node-index counter
(line 173) and runs the external fit.  On failure the exception propagates, so
the counter value is discarded with the rest of the state. -/
def fit_poly {P : Type} (fo : FitOracle P) (X : List Row) (y : List ℚ) (cnt : ℕ) :
    Except FitFailure ((ℚ × P) × ℕ) :=
  match fo X y with
  | .error e => .error e
  | .ok r => .ok (r, cnt + 1)

/-- Row indices sent left by `_split_data` (line 181):
`np.where(X[:, j] <= threshold)[0]`, ascending. -/
def idx_left (j : ℕ) (t : ℚ) (X : List Row) : List ℕ :=
  (List.range X.length).filter (fun i => decide ((X.getD i []).getD j 0 ≤ t))

/-- Row indices sent right by `_split_data` (line 182):
`np.delete(np.arange(0, len(X)), idx_left)`, i.e. the ascending indices not
selected by `idx_left`. -/
def idx_right (j : ℕ) (t : ℚ) (X : List Row) : List ℕ :=
  (List.range X.length).filter (fun i => !decide ((X.getD i []).getD j 0 ≤ t))

/-- `_split_data` (lines 180-184): fancy-indexing `X` and `y` by the left and
right index sets. -/
def split_data (j : ℕ) (t : ℚ) (X : List Row) (y : List ℚ) :
    (List Row × List ℚ) × (List Row × List ℚ) :=
  (((idx_left j t X).map (fun i => X.getD i []),
    (idx_left j t X).map (fun i => y.getD i 0)),
   ((idx_right j t X).map (fun i => X.getD i []),
    (idx_right j t X).map (fun i => y.getD i 0)))

/-- Column `j` of `X` (`X[:, j_feature]`). -/
def column (X : List Row) (j : ℕ) : List ℚ :=
  X.map (fun r => r.getD j 0)

/-- `np.min` over a nonempty list (the source only applies it to a column of
the current node's data; the empty case never arises there). -/
def listMin : List ℚ → ℚ
  | [] => 0
  | a :: l => l.foldl min a

/-- `np.max` over a nonempty list. -/
def listMax : List ℚ → ℚ
  | [] => 0
  | a :: l => l.foldl max a

/-- `np.linspace a b num`: `num` evenly spaced points from `a` to `b`,
endpoints included (`num = 1` gives `[a]`). -/
def linspace (a b : ℚ) (num : ℕ) : List ℚ :=
  if num = 0 then []
  else if num = 1 then [a]
  else (List.range num).map (fun (i : ℕ) => a + (i : ℚ) * ((b - a) / ((num : ℚ) - 1)))

/-- Raw threshold candidates for feature `j` (lines 109-116): the whole column
under `exhaustive`; `min(self.samples, len(column))` evenly spaced points over
the column's observed range under `uniform`. -/
def threshold_search (cfg : Config) (X : List Row) (j : ℕ) : List ℚ :=
  match cfg.search with
  | .exhaustive => column X j
  | .uniform =>
      let col := column X j
      let samples := if cfg.samples > col.length then col.length else cfg.samples
      linspace (listMin col) (listMax col) samples

/-- Thresholds actually iterated (line 120): `np.sort(threshold_search)`. -/
def sorted_thresholds (cfg : Config) (X : List Row) (j : ℕ) : List ℚ :=
  (threshold_search cfg X j).insertionSort (· ≤ ·)

/-- All candidate `(feature, threshold)` pairs in loop order of `_splitter`
(outer loop over features, inner loop over sorted thresholds). -/
def candidates (cfg : Config) (X : List Row) (d : ℕ) : List (ℕ × ℚ) :=
  (List.range d).flatMap (fun j => (sorted_thresholds cfg X j).map (fun t => (j, t)))

/-- The data recorded for the incumbent best split.  In the source the four
dict fields `j_feature`, `threshold`, `data` and `polys` are always written
together (lines 140-144), so they are bundled; `None` for all four is the
`Option.none` case of the surrounding state. -/
structure BestSplit (P : Type) where
  j_feature : ℕ
  threshold : ℚ
  data : (List Row × List ℚ) × (List Row × List ℚ)
  polys : P × P
  deriving DecidableEq

/-- Running state of the split search inside `_splitter`: `did_split`,
`loss_best` and the incumbent candidate (lines 97-103). -/
structure SplitState (P : Type) where
  did_split : Bool
  loss_best : ℚ
  best : Option (BestSplit P)
  deriving DecidableEq

/-- Result dict returned by `_splitter` (lines 148-154). -/
structure SplitResult (P : Type) where
  did_split : Bool
  loss : ℚ
  best : Option (BestSplit P)
  N : ℕ
  deriving DecidableEq

/-- Body of the innermost loop of `_splitter` (lines 122-144): split the data
at the candidate, skip it when a side would be smaller than
`min_samples_leaf` (before any fit), otherwise fit both sides, form the
sample-weighted loss, and replace the incumbent only on a strict
improvement. -/
def process_candidate {P : Type} (fo : FitOracle P) (msl : ℕ) (N : ℕ)
    (X : List Row) (y : List ℚ) (sc : SplitState P × ℕ) (cand : ℕ × ℚ) :
    Except FitFailure (SplitState P × ℕ) :=
  let st := sc.1
  let cnt := sc.2
  let parts := split_data cand.1 cand.2 X y
  let N_left := parts.1.1.length
  let N_right := parts.2.1.length
  if N_left ≥ msl ∧ N_right ≥ msl then
    match fit_poly fo parts.1.1 parts.1.2 cnt with
    | .error e => .error e
    | .ok ((loss_left, poly_left), cnt1) =>
      match fit_poly fo parts.2.1 parts.2.2 cnt1 with
      | .error e => .error e
      | .ok ((loss_right, poly_right), cnt2) =>
        let loss_split : ℚ :=
          ((N_left : ℚ) * loss_left + (N_right : ℚ) * loss_right) / (N : ℚ)
        if loss_split < st.loss_best then
          .ok (⟨true, loss_split, some ⟨cand.1, cand.2, parts, (poly_left, poly_right)⟩⟩, cnt2)
        else
          .ok (st, cnt2)
  else
    .ok (st, cnt)

/-- The node dict of `_create_node` (lines 186-201), minus the child links
(children are attached by `split_traverse`, mirroring the later mutation). -/
structure NodeInfo (P : Type) where
  index : ℕ
  loss : ℚ
  poly : P
  data : List Row × List ℚ
  n_samples : ℕ
  depth : ℕ
  deriving DecidableEq

/-- `_splitter` (lines 90-156): when the node's depth is below `max_depth`
(`depth >= 0` is automatic for `ℕ` depths), fold the candidate loop over the
initial no-split state seeded with the node's own loss; otherwise return the
no-split result unchanged. -/
def splitter {P : Type} (fo : FitOracle P) (cfg : Config) (nd : NodeInfo P) (cnt : ℕ) :
    Except FitFailure (SplitResult P × ℕ) :=
  let X := nd.data.1
  let y := nd.data.2
  let N := X.length
  let d := (X.headD []).length
  let init : SplitState P := ⟨false, nd.loss, none⟩
  if nd.depth < cfg.max_depth then
    match (candidates cfg X d).foldlM (process_candidate fo cfg.min_samples_leaf N X y) (init, cnt) with
    | .error e => .error e
    | .ok (st, cnt') => .ok (⟨st.did_split, st.loss_best, st.best, N⟩, cnt')
  else
    .ok (⟨init.did_split, init.loss_best, init.best, N⟩, cnt)

/-- `_create_node` (lines 186-201): fit the node's own polynomial (which bumps
the counter once, line 173), record the counter value as the node's index and
bump it again (line 199). -/
def create_node {P : Type} (fo : FitOracle P) (X : List Row) (y : List ℚ)
    (depth : ℕ) (cnt : ℕ) : Except FitFailure (NodeInfo P × ℕ) :=
  match fit_poly fo X y cnt with
  | .error e => .error e
  | .ok ((poly_loss, poly), cnt1) =>
      .ok (⟨cnt1, poly_loss, poly, (X, y), X.length, depth⟩, cnt1 + 1)

/-- A built tree.  A leaf keeps the full node dict including its data slice; an
internal node has had `data` deleted (line 213) and its split fields and both
children set. -/
inductive PTree (P : Type) where
  | leaf (info : NodeInfo P)
  | node (index : ℕ) (loss : ℚ) (poly : P) (n_samples : ℕ) (depth : ℕ)
      (j_feature : ℕ) (threshold : ℚ) (left : PTree P) (right : PTree P)
  deriving DecidableEq

/-- `_split_traverse_node` (lines 203-229): run the splitter; without a split
the node stays a leaf.  With a split, create the left child then the right
child (lines 218-219, both created and indexed before either subtree is
traversed), overwrite both children's polynomials with the fits from the split
search (lines 220-221), then recurse into the left subtree and afterwards the
right subtree (lines 225-227). -/
def split_traverse {P : Type} (fo : FitOracle P) (cfg : Config) :
    ℕ → NodeInfo P → ℕ → Except FitFailure (PTree P × ℕ)
  | 0, nd, cnt => .ok (.leaf nd, cnt)
  | fuel + 1, nd, cnt =>
    match splitter fo cfg nd cnt with
    | .error e => .error e
    | .ok (res, cnt1) =>
      if res.did_split then
        match res.best with
        | none => .ok (.leaf nd, cnt1)
        | some b =>
          match create_node fo b.data.1.1 b.data.1.2 (nd.depth + 1) cnt1 with
          | .error e => .error e
          | .ok (ndl, cnt2) =>
            match create_node fo b.data.2.1 b.data.2.2 (nd.depth + 1) cnt2 with
            | .error e => .error e
            | .ok (ndr, cnt3) =>
              match split_traverse fo cfg fuel { ndl with poly := b.polys.1 } cnt3 with
              | .error e => .error e
              | .ok (tl, cnt4) =>
                match split_traverse fo cfg fuel { ndr with poly := b.polys.2 } cnt4 with
                | .error e => .error e
                | .ok (tr, cnt5) =>
                  .ok (.node nd.index nd.loss nd.poly nd.n_samples nd.depth
                        b.j_feature b.threshold tl tr, cnt5)
      else
        .ok (.leaf nd, cnt1)

/-- `_build_tree` (lines 86-234): zero the counter, create the root at depth 0
and traverse.  Fuel `max_depth + 1` covers every reachable recursion depth
because `_splitter` never splits at `depth ≥ max_depth`. -/
def build_tree {P : Type} (fo : FitOracle P) (cfg : Config) (X : List Row) (y : List ℚ) :
    Except FitFailure (PTree P × ℕ) :=
  match create_node fo X y 0 0 with
  | .error e => .error e
  | .ok (root, cnt) => split_traverse fo cfg (cfg.max_depth + 1) root cnt

/-- `PolyTree.fit` (line 236): store the built tree; a fit failure anywhere in
the build surfaces to the caller. -/
def fit_tree {P : Type} (fo : FitOracle P) (cfg : Config) (X : List Row) (y : List ℚ) :
    Except FitFailure (PTree P) :=
  (build_tree fo cfg X y).map Prod.fst

/-- Evaluation of a fitted model at a query row
(`node["poly"].get_polyfit(x)[0]`, external collaborator). -/
def PolyEval (P : Type) : Type := P → Row → ℚ

/-- Error raised by `predict` before a tree exists (`assert self.tree is not
None`, line 247). -/
inductive PredictErr where
  | treeNotFitted
  deriving DecidableEq

/-- Inner `_predict` (lines 248-258): leaves evaluate their polynomial, and an
internal node routes left on `x[j] <= threshold`, right otherwise. -/
def predict_node {P : Type} (ev : PolyEval P) : PTree P → Row → ℚ
  | .leaf info, x => ev info.poly x
  | .node _ _ _ _ _ j t l r, x =>
      if x.getD j 0 ≤ t then predict_node ev l x else predict_node ev r x

/-- `PolyTree.predict` (lines 238-260): fail when no tree has been fitted,
otherwise map `_predict` over the query rows in order. -/
def predict {P : Type} (ev : PolyEval P) (tree : Option (PTree P)) (X : List Row) :
    Except PredictErr (List ℚ) :=
  match tree with
  | none => .error .treeNotFitted
  | some tr => .ok (X.map (fun x => predict_node ev tr x))

/-- The leaf reached by the routing walk as the spec words it (§4.4): while the
node is internal compare `x[j]` with the threshold, `<=` goes left, `>` goes
right; stop at a leaf. -/
def route_leaf {P : Type} : PTree P → Row → NodeInfo P
  | .leaf info, _ => info
  | .node _ _ _ _ _ j t l r, x =>
      if x.getD j 0 ≤ t then route_leaf l x else route_leaf r x

/-- Depths of all nodes of a built tree. -/
def PTree.depths {P : Type} : PTree P → List ℕ
  | .leaf info => [info.depth]
  | .node _ _ _ _ depth _ _ l r => depth :: (l.depths ++ r.depths)

/-- Node dicts of all leaves, left subtree before right subtree. -/
def PTree.leafInfos {P : Type} : PTree P → List (NodeInfo P)
  | .leaf info => [info]
  | .node _ _ _ _ _ _ _ l r => l.leafInfos ++ r.leafInfos

/-- Indices of all nodes of a built tree (root first). -/
def PTree.indices {P : Type} : PTree P → List ℕ
  | .leaf info => [info.index]
  | .node i _ _ _ _ _ _ l r => i :: (l.indices ++ r.indices)

/-- Index of the root of a (sub)tree. -/
def PTree.rootIdx {P : Type} : PTree P → ℕ
  | .leaf info => info.index
  | .node i _ _ _ _ _ _ _ _ => i

/-- Indices of the left subtree of the root (empty for a leaf). -/
def PTree.leftIdxList {P : Type} : PTree P → List ℕ
  | .leaf _ => []
  | .node _ _ _ _ _ _ _ l _ => l.indices

/-- Root index of the right subtree of the root (`0` for a leaf). -/
def PTree.rightRootIdx {P : Type} : PTree P → ℕ
  | .leaf _ => 0
  | .node _ _ _ _ _ _ _ _ r => r.rootIdx

/-- Candidate list as claim C6 words it for the exhaustive strategy: the
distinct values present in the column, in ascending order. -/
def distinct_ascending (l : List ℚ) : List ℚ :=
  (l.insertionSort (· ≤ ·)).dedup

/-! ### Concrete instances for witnesses and counterexamples -/

/-- Demonstration oracle: loss is the squared row count (so larger partitions
always fit worse and every balanced split strictly improves), model trivial. -/
def demoFo : FitOracle Unit := fun X _ => .ok (((X.length * X.length : ℕ) : ℚ), ())

/-- Demonstration configuration: depth limit 2, one sample per leaf,
exhaustive search. -/
def demoCfg : Config := ⟨2, 1, .exhaustive, 10⟩

/-- Four one-dimensional training rows. -/
def demoX : List Row := [[0], [1], [2], [3]]

/-- Constant outputs for the demonstration rows. -/
def demoY : List ℚ := [0, 0, 0, 0]

/-- Root node dict produced for the demonstration data (index 1 after the two
counter bumps of root creation, loss 16 = 4², depth 0). -/
def demoRoot : NodeInfo Unit := ⟨1, 16, (), (demoX, demoY), 4, 0⟩

/-- Split-search result on the demonstration root: best split at threshold 1,
weighted loss (2·4 + 2·4)/4 = 4, six fits performed. -/
def demoSplitRes : SplitResult Unit :=
  ⟨true, 4, some ⟨0, 1, (([[0], [1]], [0, 0]), ([[2], [3]], [0, 0])), ((), ())⟩, 4⟩

/-- Left subtree of the demonstration build: created with index 9, split again
at threshold 0 into leaves indexed 15 and 17. -/
def demoLeft : PTree Unit :=
  .node 9 4 () 2 1 0 0
    (.leaf ⟨15, 1, (), ([[0]], [0]), 1, 2⟩)
    (.leaf ⟨17, 1, (), ([[1]], [0]), 1, 2⟩)

/-- Right subtree of the demonstration build: created with index 11 — before
the left subtree was traversed — and split at threshold 2 into leaves indexed
21 and 23. -/
def demoRight : PTree Unit :=
  .node 11 4 () 2 1 0 2
    (.leaf ⟨21, 1, (), ([[2]], [0]), 1, 2⟩)
    (.leaf ⟨23, 1, (), ([[3]], [0]), 1, 2⟩)

/-- The full demonstration tree. -/
def demoTree : PTree Unit := .node 1 16 () 4 0 0 1 demoLeft demoRight

/-- Oracle that fails on partitions of at most one row but fits larger blocks
(squared row count as loss). -/
def failFo : FitOracle Unit := fun X _ =>
  if X.length ≤ 1 then .error .fitFail else .ok (((X.length * X.length : ℕ) : ℚ), ())

/-- Oracle with constant zero loss. -/
def zeroFo : FitOracle Unit := fun _ _ => .ok (0, ())

/-! ### Generic helper lemmas -/

/-- An invariant preserved by every successful step of a fold in the `Except`
monad is carried from the initial state to the final one. -/
theorem foldlM_ok_inv {ε σ α : Type} {f : σ → α → Except ε σ} (Inv : σ → Prop) :
    ∀ (l : List α), (∀ a ∈ l, ∀ x x', f x a = .ok x' → Inv x → Inv x') →
      ∀ (s s' : σ), l.foldlM f s = .ok s' → Inv s → Inv s'
  | [], _, s, s', h, hs => by
      simp only [List.foldlM_nil] at h
      cases h
      exact hs
  | a :: l, hstep, s, s', h, hs => by
      rw [List.foldlM_cons] at h
      cases hfa : f s a with
      | error e =>
          rw [hfa] at h
          have h2 : (Except.error e : Except ε σ) = Except.ok s' := h
          cases h2
      | ok s1 =>
          rw [hfa] at h
          have h' : l.foldlM f s1 = .ok s' := h
          exact foldlM_ok_inv Inv l (fun b hb => hstep b (List.mem_cons_of_mem a hb)) s1 s' h'
            (hstep a (List.mem_cons_self a l) s s1 hfa hs)

/-- Shape of a successful `_create_node`: the index is the counter value after
the fit's increment, and the counter advances by two in total. -/
theorem create_node_ok {P : Type} {fo : FitOracle P} {X : List Row} {y : List ℚ}
    {depth cnt : ℕ} {nd : NodeInfo P} {cnt' : ℕ}
    (h : create_node fo X y depth cnt = .ok (nd, cnt')) :
    ∃ l p, fo X y = .ok (l, p) ∧ nd = ⟨cnt + 1, l, p, (X, y), X.length, depth⟩ ∧
      cnt' = cnt + 2 := by
  cases hf : fo X y with
  | error e => rw [create_node, fit_poly, hf] at h; cases h
  | ok r =>
      obtain ⟨l, p⟩ := r
      rw [create_node, fit_poly, hf] at h
      cases h
      exact ⟨l, p, rfl, rfl, rfl⟩

/-- Fancy-indexing a list by the positions whose entry satisfies `p` is the
same as filtering the list by `p`. -/
theorem filter_range_map_getD {α : Type} (p : α → Bool) (d : α) :
    ∀ l : List α,
      ((List.range l.length).filter (fun i => p (l.getD i d))).map (fun i => l.getD i d) =
        l.filter p
  | [] => rfl
  | a :: l => by
      have ih := filter_range_map_getD p d l
      rw [List.length_cons, List.range_succ_eq_map]
      rw [List.filter_cons]
      simp only [List.getD_cons_zero]
      rw [List.filter_map]
      have hcomp :
          ((fun i => p ((a :: l).getD i d)) ∘ Nat.succ) = fun i => p (l.getD i d) := by
        funext i
        simp [List.getD_cons_succ]
      rw [hcomp]
      have hcomp2 :
          ((fun i => (a :: l).getD i d) ∘ Nat.succ) = fun i => l.getD i d := by
        funext i
        simp [List.getD_cons_succ]
      by_cases hpa : p a = true
      · rw [if_pos hpa, List.map_cons, List.map_map, hcomp2]
        simp only [List.getD_cons_zero]
        rw [ih, List.filter_cons, if_pos hpa]
      · rw [if_neg hpa, List.map_map, hcomp2, ih, List.filter_cons, if_neg hpa]

/-- `getD` commutes with `map` at indices inside the list. -/
theorem getD_map_lt {α β : Type} (f : α → β) (dα : α) (dβ : β) :
    ∀ (l : List α) (i : ℕ), i < l.length → (l.map f).getD i dβ = f (l.getD i dα)
  | _ :: _, 0, _ => rfl
  | _ :: l, i + 1, h => getD_map_lt f dα dβ l i (Nat.lt_of_succ_lt_succ h)

/-- The two sides of `_split_data` always partition the parent's row count. -/
theorem split_data_length_sum (j : ℕ) (t : ℚ) (X : List Row) (y : List ℚ) :
    (split_data j t X y).1.1.length + (split_data j t X y).2.1.length = X.length := by
  show ((idx_left j t X).map _).length + ((idx_right j t X).map _).length = X.length
  have hlen := @List.length_eq_length_filter_add ℕ (List.range X.length)
    (fun i => decide ((X.getD i []).getD j 0 ≤ t))
  rw [List.length_range] at hlen
  rw [List.length_map, List.length_map, idx_left, idx_right]
  exact hlen.symm

/-! ### Claim theorems -/

/-- Claim C2: splitting a parent's rows at `(feature, threshold)` puts exactly
the rows with `feature ≤ threshold` in the left part and the complement in the
right part; the two index sets are disjoint and the part sizes add up to the
parent's row count, for every feature index, threshold and input array. -/
theorem split_data_partition (j : ℕ) (t : ℚ) (X : List Row) (y : List ℚ) :
    (split_data j t X y).1.1 = X.filter (fun r => decide (r.getD j 0 ≤ t)) ∧
    (split_data j t X y).2.1 = X.filter (fun r => !decide (r.getD j 0 ≤ t)) ∧
    (split_data j t X y).1.1.length + (split_data j t X y).2.1.length = X.length ∧
    ∀ i : ℕ, ¬ (i ∈ idx_left j t X ∧ i ∈ idx_right j t X) := by
  refine ⟨?_, ?_, split_data_length_sum j t X y, ?_⟩
  · exact filter_range_map_getD (fun r => decide (r.getD j 0 ≤ t)) ([] : Row) X
  · exact filter_range_map_getD (fun r => !decide (r.getD j 0 ≤ t)) ([] : Row) X
  · intro i ⟨hl, hr⟩
    rw [idx_left, List.mem_filter] at hl
    rw [idx_right, List.mem_filter] at hr
    rw [hl.2] at hr
    exact absurd hr.2 (by simp)

/-- Skipping an infeasible candidate: when either side of the split would be
smaller than `min_samples_leaf`, the loop body returns the incumbent state and
the fit counter untouched, for every fit oracle — since every `_fit_poly` call
advances the counter, an unchanged counter witnesses that no fit ran. -/
theorem process_candidate_skip {P : Type} (fo : FitOracle P) (msl N : ℕ)
    (X : List Row) (y : List ℚ) (st : SplitState P) (cnt : ℕ) (cand : ℕ × ℚ)
    (h : (split_data cand.1 cand.2 X y).1.1.length < msl ∨
         (split_data cand.1 cand.2 X y).2.1.length < msl) :
    process_candidate fo msl N X y (st, cnt) cand = .ok (st, cnt) := by
  rw [process_candidate]
  rw [if_neg]
  intro ⟨h1, h2⟩
  rcases h with h | h
  · exact absurd h1 (Nat.not_le.2 h)
  · exact absurd h2 (Nat.not_le.2 h)

/-- Evaluating a feasible candidate whose two side fits succeed: the incumbent
is replaced exactly when the sample-weighted child loss is strictly below the
current best, and the counter advances by the two fit calls. -/
theorem process_candidate_eval {P : Type} (fo : FitOracle P) (msl N : ℕ)
    (X : List Row) (y : List ℚ) (st : SplitState P) (cnt : ℕ) (cand : ℕ × ℚ)
    (ll lr : ℚ) (pl pr : P)
    (hl : msl ≤ (split_data cand.1 cand.2 X y).1.1.length)
    (hr : msl ≤ (split_data cand.1 cand.2 X y).2.1.length)
    (hfl : fo (split_data cand.1 cand.2 X y).1.1 (split_data cand.1 cand.2 X y).1.2 =
      .ok (ll, pl))
    (hfr : fo (split_data cand.1 cand.2 X y).2.1 (split_data cand.1 cand.2 X y).2.2 =
      .ok (lr, pr)) :
    process_candidate fo msl N X y (st, cnt) cand =
      (if (((split_data cand.1 cand.2 X y).1.1.length : ℚ) * ll +
            ((split_data cand.1 cand.2 X y).2.1.length : ℚ) * lr) / (N : ℚ) < st.loss_best
       then .ok (⟨true,
              (((split_data cand.1 cand.2 X y).1.1.length : ℚ) * ll +
                ((split_data cand.1 cand.2 X y).2.1.length : ℚ) * lr) / (N : ℚ),
              some ⟨cand.1, cand.2, split_data cand.1 cand.2 X y, (pl, pr)⟩⟩, cnt + 2)
       else .ok (st, cnt + 2)) := by
  rw [process_candidate]
  rw [if_pos ⟨hl, hr⟩]
  simp only [fit_poly, hfl, hfr]

/-- A feasible candidate whose left-side fit fails makes the loop body fail:
the error is propagated, not treated as a skip. -/
theorem process_candidate_fail_left {P : Type} (fo : FitOracle P) (msl N : ℕ)
    (X : List Row) (y : List ℚ) (st : SplitState P) (cnt : ℕ) (cand : ℕ × ℚ)
    (e : FitFailure)
    (hl : msl ≤ (split_data cand.1 cand.2 X y).1.1.length)
    (hr : msl ≤ (split_data cand.1 cand.2 X y).2.1.length)
    (hfl : fo (split_data cand.1 cand.2 X y).1.1 (split_data cand.1 cand.2 X y).1.2 =
      .error e) :
    process_candidate fo msl N X y (st, cnt) cand = .error e := by
  rw [process_candidate]
  rw [if_pos ⟨hl, hr⟩]
  simp only [fit_poly, hfl]

/-- A feasible candidate whose right-side fit fails (after a successful
left-side fit) also propagates the failure. -/
theorem process_candidate_fail_right {P : Type} (fo : FitOracle P) (msl N : ℕ)
    (X : List Row) (y : List ℚ) (st : SplitState P) (cnt : ℕ) (cand : ℕ × ℚ)
    (ll : ℚ) (pl : P) (e : FitFailure)
    (hl : msl ≤ (split_data cand.1 cand.2 X y).1.1.length)
    (hr : msl ≤ (split_data cand.1 cand.2 X y).2.1.length)
    (hfl : fo (split_data cand.1 cand.2 X y).1.1 (split_data cand.1 cand.2 X y).1.2 =
      .ok (ll, pl))
    (hfr : fo (split_data cand.1 cand.2 X y).2.1 (split_data cand.1 cand.2 X y).2.2 =
      .error e) :
    process_candidate fo msl N X y (st, cnt) cand = .error e := by
  rw [process_candidate]
  rw [if_pos ⟨hl, hr⟩]
  simp only [fit_poly, hfl, hfr]

/-- Master shape of a successful candidate step: the incumbent either survives
unchanged or is replaced by a strictly better feasible split, and the counter
never decreases. -/
theorem process_candidate_ok {P : Type} {fo : FitOracle P} {msl N : ℕ}
    {X : List Row} {y : List ℚ} {st : SplitState P} {cnt : ℕ} {cand : ℕ × ℚ}
    {st' : SplitState P} {cnt' : ℕ}
    (h : process_candidate fo msl N X y (st, cnt) cand = .ok (st', cnt')) :
    cnt ≤ cnt' ∧
    (st' = st ∨
      (st'.did_split = true ∧ st'.loss_best < st.loss_best ∧
        ∃ b : BestSplit P, st'.best = some b ∧
          b.data = split_data cand.1 cand.2 X y ∧
          msl ≤ b.data.1.1.length ∧ msl ≤ b.data.2.1.length)) := by
  by_cases hfeas : msl ≤ (split_data cand.1 cand.2 X y).1.1.length ∧
      msl ≤ (split_data cand.1 cand.2 X y).2.1.length
  · cases hfl : fo (split_data cand.1 cand.2 X y).1.1 (split_data cand.1 cand.2 X y).1.2 with
    | error e =>
        rw [process_candidate_fail_left fo msl N X y st cnt cand e hfeas.1 hfeas.2 hfl] at h
        cases h
    | ok rl =>
        cases hfr : fo (split_data cand.1 cand.2 X y).2.1 (split_data cand.1 cand.2 X y).2.2 with
        | error e =>
            rw [process_candidate_fail_right fo msl N X y st cnt cand rl.1 rl.2 e
              hfeas.1 hfeas.2 (by rw [hfl]) hfr] at h
            cases h
        | ok rr =>
            rw [process_candidate_eval fo msl N X y st cnt cand rl.1 rr.1 rl.2 rr.2
              hfeas.1 hfeas.2 (by rw [hfl]) (by rw [hfr])] at h
            by_cases hlt : (((split_data cand.1 cand.2 X y).1.1.length : ℚ) * rl.1 +
                ((split_data cand.1 cand.2 X y).2.1.length : ℚ) * rr.1) / (N : ℚ) < st.loss_best
            · rw [if_pos hlt] at h
              injection h with h1
              injection h1 with h2 h3
              refine ⟨h3 ▸ Nat.le_add_right cnt 2, Or.inr ?_⟩
              rw [← h2]
              exact ⟨rfl, hlt, ⟨cand.1, cand.2, split_data cand.1 cand.2 X y, (rl.2, rr.2)⟩,
                rfl, rfl, hfeas.1, hfeas.2⟩
            · rw [if_neg hlt] at h
              injection h with h1
              injection h1 with h2 h3
              exact ⟨h3 ▸ Nat.le_add_right cnt 2, Or.inl h2.symm⟩
  · rw [Decidable.not_and_iff_or_not, Nat.not_le, Nat.not_le] at hfeas
    rw [process_candidate_skip fo msl N X y st cnt cand hfeas] at h
    injection h with h1
    injection h1 with h2 h3
    exact ⟨Nat.le_of_eq h3, Or.inl h2.symm⟩

/-- Claim C8: calling `predict` before `fit` has built a tree fails with the
precondition error instead of touching the null structure, for every input. -/
theorem predict_requires_fitted_tree {P : Type} (ev : PolyEval P) (X : List Row) :
    predict ev (none : Option (PTree P)) X = .error .treeNotFitted :=
  rfl

/-- Routing consistency of a single query: evaluating the tree agrees with
first walking to the leaf and then evaluating that leaf's polynomial. -/
theorem predict_node_eq_route {P : Type} (ev : PolyEval P) :
    ∀ (tr : PTree P) (x : Row), predict_node ev tr x = ev (route_leaf tr x).poly x
  | .leaf _, _ => rfl
  | .node _ _ _ _ _ j t l r, x => by
      rw [predict_node, route_leaf]
      by_cases h : x.getD j 0 ≤ t
      · rw [if_pos h, if_pos h]
        exact predict_node_eq_route ev l x
      · rw [if_neg h, if_neg h]
        exact predict_node_eq_route ev r x

/-- Claim C7: `predict` on a fitted tree routes every query point from the root
by the `<=`-left / `>`-right rule down to a leaf and returns that leaf's
polynomial evaluated at the point; a batch is handled row by row in input
order. -/
theorem predict_routes_and_preserves_order {P : Type} (ev : PolyEval P)
    (tr : PTree P) (X : List Row) :
    predict ev (some tr) X = .ok (X.map (fun x => predict_node ev tr x)) ∧
    (∀ x : Row, predict_node ev tr x = ev (route_leaf tr x).poly x) ∧
    (∀ i : ℕ, i < X.length →
      (X.map (fun x => predict_node ev tr x)).getD i 0 =
        ev (route_leaf tr (X.getD i [])).poly (X.getD i [])) := by
  refine ⟨rfl, predict_node_eq_route ev tr, fun i hi => ?_⟩
  rw [getD_map_lt (fun x => predict_node ev tr x) [] 0 X i hi]
  exact predict_node_eq_route ev tr (X.getD i [])

/-- A fold whose every step returns its input state unchanged ends at the
initial state. -/
theorem foldlM_skip {ε σ α : Type} {f : σ → α → Except ε σ} :
    ∀ (l : List α) (s : σ), (∀ a ∈ l, f s a = .ok s) → l.foldlM f s = .ok s
  | [], _, _ => List.foldlM_nil _ _
  | a :: l, s, h => by
      rw [List.foldlM_cons, h a (List.mem_cons_self a l)]
      have h' : l.foldlM f s = .ok s := foldlM_skip l s (fun b hb => h b (List.mem_cons_of_mem a hb))
      exact h'

/-- The candidate enumeration is ordered feature-major: a candidate appearing
later than another has a strictly larger feature index or the same feature
and a threshold at least as large. -/
theorem candidates_ordered (cfg : Config) (X : List Row) (d : ℕ) :
    (candidates cfg X d).Pairwise
      (fun c1 c2 => c1.1 < c2.1 ∨ (c1.1 = c2.1 ∧ c1.2 ≤ c2.2)) := by
  rw [candidates, List.pairwise_flatMap]
  constructor
  · intro j _
    rw [List.pairwise_map]
    have hs := List.sorted_insertionSort (· ≤ ·) (threshold_search cfg X j)
    exact hs.imp (fun h => Or.inr ⟨rfl, h⟩)
  · refine (List.pairwise_lt_range d).imp ?_
    intro j1 j2 hlt x hx y hy
    obtain ⟨t1, _, rfl⟩ := List.mem_map.1 hx
    obtain ⟨t2, _, rfl⟩ := List.mem_map.1 hy
    exact Or.inl hlt

/-- At or beyond the depth gate, `_splitter` does not even search: it returns
the no-split result and leaves the fit counter untouched. -/
theorem splitter_at_max_depth {P : Type} (fo : FitOracle P) (cfg : Config)
    (nd : NodeInfo P) (cnt : ℕ) (h : cfg.max_depth ≤ nd.depth) :
    splitter fo cfg nd cnt = .ok (⟨false, nd.loss, none, nd.data.1.length⟩, cnt) := by
  rw [splitter]
  rw [if_neg (Nat.not_lt.2 h)]

/-- Master shape of a successful `_splitter` run: the counter never decreases,
the returned loss never exceeds the node's own loss, a reported split carries a
strictly smaller loss together with an incumbent whose two sides respect
`min_samples_leaf`, and a report of a split implies the depth gate was open. -/
theorem splitter_ok_inv {P : Type} {fo : FitOracle P} {cfg : Config}
    {nd : NodeInfo P} {cnt : ℕ} {res : SplitResult P} {cnt' : ℕ}
    (h : splitter fo cfg nd cnt = .ok (res, cnt')) :
    cnt ≤ cnt' ∧ res.loss ≤ nd.loss ∧
    (res.did_split = true →
      nd.depth < cfg.max_depth ∧ res.loss < nd.loss ∧
      ∃ b : BestSplit P, res.best = some b ∧
        cfg.min_samples_leaf ≤ b.data.1.1.length ∧
        cfg.min_samples_leaf ≤ b.data.2.1.length) := by
  rw [splitter] at h
  by_cases hd : nd.depth < cfg.max_depth
  · rw [if_pos hd] at h
    cases hfold : (candidates cfg nd.data.1 ((nd.data.1.headD []).length)).foldlM
        (process_candidate fo cfg.min_samples_leaf nd.data.1.length nd.data.1 nd.data.2)
        (⟨false, nd.loss, none⟩, cnt) with
    | error e => rw [hfold] at h; cases h
    | ok sc =>
        rw [hfold] at h
        injection h with h1
        injection h1 with h2 h3
        have hinv := foldlM_ok_inv (fun sc : SplitState P × ℕ =>
            cnt ≤ sc.2 ∧ sc.1.loss_best ≤ nd.loss ∧
            (sc.1.did_split = true →
              sc.1.loss_best < nd.loss ∧
              ∃ b : BestSplit P, sc.1.best = some b ∧
                cfg.min_samples_leaf ≤ b.data.1.1.length ∧
                cfg.min_samples_leaf ≤ b.data.2.1.length))
          (candidates cfg nd.data.1 ((nd.data.1.headD []).length))
          (fun a _ x x' hstep hx => by
            obtain ⟨st0, c0⟩ := x
            obtain ⟨hc0, hloss0, hsplit0⟩ := hx
            obtain ⟨hcle, hcases⟩ := process_candidate_ok hstep
            refine ⟨Nat.le_trans hc0 hcle, ?_, ?_⟩
            · rcases hcases with rfl | ⟨_, hlt, _⟩
              · exact hloss0
              · exact le_of_lt (lt_of_lt_of_le hlt hloss0)
            · rcases hcases with rfl | ⟨hds, hlt, b, hb, _, hbl, hbr⟩
              · exact hsplit0
              · exact fun _ => ⟨lt_of_lt_of_le hlt hloss0, b, hb, hbl, hbr⟩)
          (⟨false, nd.loss, none⟩, cnt) sc hfold
          ⟨Nat.le_refl cnt, le_refl nd.loss, fun hfalse => by cases hfalse⟩
        rw [← h2, ← h3]
        exact ⟨hinv.1, hinv.2.1, fun hds => ⟨hd, hinv.2.2 hds⟩⟩
  · rw [if_neg hd] at h
    injection h with h1
    injection h1 with h2 h3
    rw [← h2, ← h3]
    exact ⟨Nat.le_refl cnt, le_refl nd.loss, fun hfalse => by cases hfalse⟩

/-- With fewer rows than `min_samples_leaf`, every candidate is infeasible (a
side can hold at most all rows), so `_splitter` reports no split and performs
no fit at all. -/
theorem splitter_small_node {P : Type} (fo : FitOracle P) (cfg : Config)
    (nd : NodeInfo P) (cnt : ℕ) (h : nd.data.1.length < cfg.min_samples_leaf) :
    splitter fo cfg nd cnt = .ok (⟨false, nd.loss, none, nd.data.1.length⟩, cnt) := by
  rw [splitter]
  have hskip : ∀ cand ∈ candidates cfg nd.data.1 ((nd.data.1.headD []).length),
      process_candidate fo cfg.min_samples_leaf nd.data.1.length nd.data.1 nd.data.2
        ((⟨false, nd.loss, none⟩ : SplitState P), cnt) cand =
        .ok ((⟨false, nd.loss, none⟩ : SplitState P), cnt) := by
    intro cand _
    apply process_candidate_skip
    left
    have hsum := split_data_length_sum cand.1 cand.2 nd.data.1 nd.data.2
    exact Nat.lt_of_le_of_lt (hsum ▸ Nat.le_add_right _ _) h
  by_cases hd : nd.depth < cfg.max_depth
  · rw [if_pos hd]
    rw [foldlM_skip _ _ hskip]
  · rw [if_neg hd]

/-- Claim C1: a split is reported only with a sample-weighted child loss
strictly below the node's own pre-split loss; a candidate whose weighted loss
exactly equals the incumbent best does not replace it (the state and the two
fit-counter bumps are the only effect), and the enumeration order that makes
the surviving incumbent the first-found candidate is feature-major with
ascending thresholds. -/
theorem splitter_strict_improvement {P : Type} (fo : FitOracle P) (cfg : Config) :
    (∀ (nd : NodeInfo P) (cnt : ℕ) (res : SplitResult P) (cnt' : ℕ),
      splitter fo cfg nd cnt = .ok (res, cnt') → res.did_split = true →
        res.loss < nd.loss) ∧
    (∀ (msl N : ℕ) (X : List Row) (y : List ℚ) (st : SplitState P) (cnt : ℕ)
        (cand : ℕ × ℚ) (ll lr : ℚ) (pl pr : P),
      msl ≤ (split_data cand.1 cand.2 X y).1.1.length →
      msl ≤ (split_data cand.1 cand.2 X y).2.1.length →
      fo (split_data cand.1 cand.2 X y).1.1 (split_data cand.1 cand.2 X y).1.2 =
        .ok (ll, pl) →
      fo (split_data cand.1 cand.2 X y).2.1 (split_data cand.1 cand.2 X y).2.2 =
        .ok (lr, pr) →
      (((split_data cand.1 cand.2 X y).1.1.length : ℚ) * ll +
        ((split_data cand.1 cand.2 X y).2.1.length : ℚ) * lr) / (N : ℚ) = st.loss_best →
      process_candidate fo msl N X y (st, cnt) cand = .ok (st, cnt + 2)) ∧
    (∀ (X : List Row) (d : ℕ),
      (candidates cfg X d).Pairwise
        (fun c1 c2 => c1.1 < c2.1 ∨ (c1.1 = c2.1 ∧ c1.2 ≤ c2.2))) := by
  refine ⟨?_, ?_, fun X d => candidates_ordered cfg X d⟩
  · intro nd cnt res cnt' h hds
    exact ((splitter_ok_inv h).2.2 hds).2.1
  · intro msl N X y st cnt cand ll lr pl pr hl hr hfl hfr heq
    rw [process_candidate_eval fo msl N X y st cnt cand ll lr pl pr hl hr hfl hfr]
    rw [if_neg]
    rw [heq]
    exact lt_irrefl st.loss_best

/-- Claim C3: a reported split's two sides both hold at least
`min_samples_leaf` rows, and a candidate violating that bound is dropped
before any polynomial fit: its step leaves the state and the fit counter
(bumped by every fit call) untouched, whatever the fit oracle would do. -/
theorem splitter_leaf_size_feasibility {P : Type} (fo : FitOracle P) (cfg : Config) :
    (∀ (nd : NodeInfo P) (cnt : ℕ) (res : SplitResult P) (cnt' : ℕ),
      splitter fo cfg nd cnt = .ok (res, cnt') → res.did_split = true →
        ∃ b : BestSplit P, res.best = some b ∧
          cfg.min_samples_leaf ≤ b.data.1.1.length ∧
          cfg.min_samples_leaf ≤ b.data.2.1.length) ∧
    (∀ (fo' : FitOracle P) (msl N : ℕ) (X : List Row) (y : List ℚ)
        (st : SplitState P) (cnt : ℕ) (cand : ℕ × ℚ),
      (split_data cand.1 cand.2 X y).1.1.length < msl ∨
        (split_data cand.1 cand.2 X y).2.1.length < msl →
      process_candidate fo' msl N X y (st, cnt) cand = .ok (st, cnt)) := by
  refine ⟨?_, ?_⟩
  · intro nd cnt res cnt' h hds
    exact ((splitter_ok_inv h).2.2 hds).2.2
  · intro fo' msl N X y st cnt cand hinf
    exact process_candidate_skip fo' msl N X y st cnt cand hinf

/-- Amended claim C5: the source has no exception handling, so a fit failure on
either side of a feasible candidate aborts the entire split search — the error
propagates out of the candidate step, and a failing `_splitter` aborts the
node traversal — instead of the candidate being skipped. -/
theorem candidate_fit_failure_propagates {P : Type} (fo : FitOracle P) (cfg : Config) :
    (∀ (msl N : ℕ) (X : List Row) (y : List ℚ) (st : SplitState P) (cnt : ℕ)
        (cand : ℕ × ℚ) (e : FitFailure),
      msl ≤ (split_data cand.1 cand.2 X y).1.1.length →
      msl ≤ (split_data cand.1 cand.2 X y).2.1.length →
      fo (split_data cand.1 cand.2 X y).1.1 (split_data cand.1 cand.2 X y).1.2 =
        .error e →
      process_candidate fo msl N X y (st, cnt) cand = .error e) ∧
    (∀ (msl N : ℕ) (X : List Row) (y : List ℚ) (st : SplitState P) (cnt : ℕ)
        (cand : ℕ × ℚ) (ll : ℚ) (pl : P) (e : FitFailure),
      msl ≤ (split_data cand.1 cand.2 X y).1.1.length →
      msl ≤ (split_data cand.1 cand.2 X y).2.1.length →
      fo (split_data cand.1 cand.2 X y).1.1 (split_data cand.1 cand.2 X y).1.2 =
        .ok (ll, pl) →
      fo (split_data cand.1 cand.2 X y).2.1 (split_data cand.1 cand.2 X y).2.2 =
        .error e →
      process_candidate fo msl N X y (st, cnt) cand = .error e) ∧
    (∀ (fuel : ℕ) (nd : NodeInfo P) (cnt : ℕ) (e : FitFailure),
      splitter fo cfg nd cnt = .error e →
      split_traverse fo cfg (fuel + 1) nd cnt = .error e) := by
  refine ⟨?_, ?_, ?_⟩
  · intro msl N X y st cnt cand e hl hr hfl
    exact process_candidate_fail_left fo msl N X y st cnt cand e hl hr hfl
  · intro msl N X y st cnt cand ll pl e hl hr hfl hfr
    exact process_candidate_fail_right fo msl N X y st cnt cand ll pl e hl hr hfl hfr
  · intro fuel nd cnt e h
    rw [split_traverse, h]

/-- Depths in a traversal result: every node is at the starting depth or
strictly deeper, and any node strictly deeper than its subtree root sits at or
below `max_depth` (children are only created behind the open depth gate). -/
theorem split_traverse_depths {P : Type} {fo : FitOracle P} {cfg : Config} :
    ∀ (fuel : ℕ) (nd : NodeInfo P) (cnt : ℕ) (tr : PTree P) (cnt' : ℕ),
      split_traverse fo cfg fuel nd cnt = .ok (tr, cnt') →
      ∀ a ∈ tr.depths, a = nd.depth ∨ (nd.depth < a ∧ a ≤ cfg.max_depth)
  | 0, nd, cnt, tr, cnt', h => by
      rw [split_traverse] at h
      injection h with h1
      injection h1 with h2 h3
      intro a ha
      rw [← h2, PTree.depths] at ha
      rw [List.mem_singleton.1 ha]
      exact Or.inl rfl
  | fuel + 1, nd, cnt, tr, cnt', h => by
      rw [split_traverse] at h
      cases hsp : splitter fo cfg nd cnt with
      | error e => rw [hsp] at h; cases h
      | ok rc =>
          obtain ⟨res, cnt1⟩ := rc
          rw [hsp] at h
          dsimp only at h
          by_cases hds : res.did_split = true
          · rw [if_pos hds] at h
            cases hbest : res.best with
            | none =>
                rw [hbest] at h
                injection h with h1
                injection h1 with h2 h3
                intro a ha
                rw [← h2, PTree.depths] at ha
                rw [List.mem_singleton.1 ha]
                exact Or.inl rfl
            | some b =>
                rw [hbest] at h
                dsimp only at h
                cases hcl : create_node fo b.data.1.1 b.data.1.2 (nd.depth + 1) cnt1 with
                | error e => rw [hcl] at h; cases h
                | ok rl =>
                    obtain ⟨ndl, cnt2⟩ := rl
                    rw [hcl] at h
                    dsimp only at h
                    cases hcr : create_node fo b.data.2.1 b.data.2.2 (nd.depth + 1) cnt2 with
                    | error e => rw [hcr] at h; cases h
                    | ok rr =>
                        obtain ⟨ndr, cnt3⟩ := rr
                        rw [hcr] at h
                        dsimp only at h
                        cases htl : split_traverse fo cfg fuel
                            { ndl with poly := b.polys.1 } cnt3 with
                        | error e => rw [htl] at h; cases h
                        | ok pl =>
                            obtain ⟨tl, cnt4⟩ := pl
                            rw [htl] at h
                            dsimp only at h
                            cases htr : split_traverse fo cfg fuel
                                { ndr with poly := b.polys.2 } cnt4 with
                            | error e => rw [htr] at h; cases h
                            | ok pr =>
                                obtain ⟨tr2, cnt5⟩ := pr
                                rw [htr] at h
                                injection h with h1
                                injection h1 with h2 h3
                                intro a ha
                                rw [← h2, PTree.depths] at ha
                                have hdgate : nd.depth < cfg.max_depth :=
                                  ((splitter_ok_inv hsp).2.2 hds).1
                                obtain ⟨_, _, _, hnl, _⟩ := create_node_ok hcl
                                obtain ⟨_, _, _, hnr, _⟩ := create_node_ok hcr
                                have hdl : ({ ndl with poly := b.polys.1 } : NodeInfo P).depth =
                                    nd.depth + 1 := by rw [hnl]
                                have hdr : ({ ndr with poly := b.polys.2 } : NodeInfo P).depth =
                                    nd.depth + 1 := by rw [hnr]
                                rcases List.mem_cons.1 ha with rfl | ha2
                                · exact Or.inl rfl
                                · have hchild :
                                      ∀ (sub : PTree P) (ndc : NodeInfo P) (c c' : ℕ),
                                        ndc.depth = nd.depth + 1 →
                                        split_traverse fo cfg fuel ndc c = .ok (sub, c') →
                                        a ∈ sub.depths →
                                        nd.depth < a ∧ a ≤ cfg.max_depth := by
                                    intro sub ndc c c' hdc hsub hma
                                    rcases split_traverse_depths fuel ndc c sub c' hsub a hma with
                                      heq | ⟨hlt, hle⟩
                                    · rw [heq, hdc]
                                      exact ⟨Nat.lt_succ_self _, Nat.succ_le_of_lt hdgate⟩
                                    · rw [hdc] at hlt
                                      exact ⟨Nat.lt_of_succ_lt hlt, hle⟩
                                  rcases List.mem_append.1 ha2 with hal | har
                                  · exact Or.inr (hchild tl _ cnt3 cnt4 hdl htl hal)
                                  · exact Or.inr (hchild tr2 _ cnt4 cnt5 hdr htr har)
          · rw [if_neg hds] at h
            injection h with h1
            injection h1 with h2 h3
            intro a ha
            rw [← h2, PTree.depths] at ha
            rw [List.mem_singleton.1 ha]
            exact Or.inl rfl

/-- Every leaf of a traversal result that sits strictly below the depth gate
is a node on which `_splitter` reported no improving feasible split (given
enough fuel, which `build_tree` always supplies). -/
theorem split_traverse_leaves {P : Type} {fo : FitOracle P} {cfg : Config} :
    ∀ (fuel : ℕ) (nd : NodeInfo P) (cnt : ℕ) (tr : PTree P) (cnt' : ℕ),
      cfg.max_depth < fuel + nd.depth →
      split_traverse fo cfg fuel nd cnt = .ok (tr, cnt') →
      ∀ info ∈ tr.leafInfos, info.depth < cfg.max_depth →
        ∃ (c0 : ℕ) (res0 : SplitResult P) (c1 : ℕ),
          splitter fo cfg info c0 = .ok (res0, c1) ∧ res0.did_split = false
  | 0, nd, cnt, tr, cnt', hfuel, h => by
      rw [split_traverse] at h
      injection h with h1
      injection h1 with h2 h3
      intro info hinfo hdep
      rw [← h2, PTree.leafInfos] at hinfo
      rw [List.mem_singleton.1 hinfo] at hdep
      rw [Nat.zero_add] at hfuel
      exact absurd hdep (Nat.lt_asymm hfuel)
  | fuel + 1, nd, cnt, tr, cnt', hfuel, h => by
      rw [split_traverse] at h
      cases hsp : splitter fo cfg nd cnt with
      | error e => rw [hsp] at h; cases h
      | ok rc =>
          obtain ⟨res, cnt1⟩ := rc
          rw [hsp] at h
          dsimp only at h
          by_cases hds : res.did_split = true
          · rw [if_pos hds] at h
            cases hbest : res.best with
            | none =>
                obtain ⟨b, hb, _, _⟩ := ((splitter_ok_inv hsp).2.2 hds).2.2
                rw [hbest] at hb
                cases hb
            | some b =>
                rw [hbest] at h
                dsimp only at h
                cases hcl : create_node fo b.data.1.1 b.data.1.2 (nd.depth + 1) cnt1 with
                | error e => rw [hcl] at h; cases h
                | ok rl =>
                    obtain ⟨ndl, cnt2⟩ := rl
                    rw [hcl] at h
                    dsimp only at h
                    cases hcr : create_node fo b.data.2.1 b.data.2.2 (nd.depth + 1) cnt2 with
                    | error e => rw [hcr] at h; cases h
                    | ok rr =>
                        obtain ⟨ndr, cnt3⟩ := rr
                        rw [hcr] at h
                        dsimp only at h
                        cases htl : split_traverse fo cfg fuel
                            { ndl with poly := b.polys.1 } cnt3 with
                        | error e => rw [htl] at h; cases h
                        | ok pl =>
                            obtain ⟨tl, cnt4⟩ := pl
                            rw [htl] at h
                            dsimp only at h
                            cases htr : split_traverse fo cfg fuel
                                { ndr with poly := b.polys.2 } cnt4 with
                            | error e => rw [htr] at h; cases h
                            | ok pr =>
                                obtain ⟨tr2, cnt5⟩ := pr
                                rw [htr] at h
                                injection h with h1
                                injection h1 with h2 h3
                                intro info hinfo hdep
                                rw [← h2, PTree.leafInfos] at hinfo
                                obtain ⟨_, _, _, hnl, _⟩ := create_node_ok hcl
                                obtain ⟨_, _, _, hnr, _⟩ := create_node_ok hcr
                                have hdl : ({ ndl with poly := b.polys.1 } : NodeInfo P).depth =
                                    nd.depth + 1 := by rw [hnl]
                                have hdr : ({ ndr with poly := b.polys.2 } : NodeInfo P).depth =
                                    nd.depth + 1 := by rw [hnr]
                                have hfl : cfg.max_depth <
                                    fuel + ({ ndl with poly := b.polys.1 } : NodeInfo P).depth := by
                                  rw [hdl]
                                  omega
                                have hfr : cfg.max_depth <
                                    fuel + ({ ndr with poly := b.polys.2 } : NodeInfo P).depth := by
                                  rw [hdr]
                                  omega
                                rcases List.mem_append.1 hinfo with hal | har
                                · exact split_traverse_leaves fuel _ cnt3 tl cnt4 hfl htl
                                    info hal hdep
                                · exact split_traverse_leaves fuel _ cnt4 tr2 cnt5 hfr htr
                                    info har hdep
          · rw [if_neg hds] at h
            injection h with h1
            injection h1 with h2 h3
            intro info hinfo _
            rw [← h2, PTree.leafInfos] at hinfo
            rw [List.mem_singleton.1 hinfo]
            exact ⟨cnt, res, cnt1, hsp, Bool.not_eq_true _ ▸ hds⟩

/-- Counter and index bookkeeping of a traversal: the counter never decreases,
the returned tree's root keeps the node's index, and every other index in the
tree was drawn from the counter interval consumed by the traversal. -/
theorem split_traverse_indices {P : Type} {fo : FitOracle P} {cfg : Config} :
    ∀ (fuel : ℕ) (nd : NodeInfo P) (cnt : ℕ) (tr : PTree P) (cnt' : ℕ),
      split_traverse fo cfg fuel nd cnt = .ok (tr, cnt') →
      cnt ≤ cnt' ∧ tr.rootIdx = nd.index ∧
      ∀ i ∈ tr.indices, i = nd.index ∨ (cnt < i ∧ i ≤ cnt')
  | 0, nd, cnt, tr, cnt', h => by
      rw [split_traverse] at h
      injection h with h1
      injection h1 with h2 h3
      rw [← h2, ← h3]
      refine ⟨Nat.le_refl cnt, rfl, ?_⟩
      intro i hi
      rw [PTree.indices] at hi
      rw [List.mem_singleton.1 hi]
      exact Or.inl rfl
  | fuel + 1, nd, cnt, tr, cnt', h => by
      rw [split_traverse] at h
      cases hsp : splitter fo cfg nd cnt with
      | error e => rw [hsp] at h; cases h
      | ok rc =>
          obtain ⟨res, cnt1⟩ := rc
          rw [hsp] at h
          dsimp only at h
          have hc01 : cnt ≤ cnt1 := (splitter_ok_inv hsp).1
          by_cases hds : res.did_split = true
          · rw [if_pos hds] at h
            cases hbest : res.best with
            | none =>
                rw [hbest] at h
                injection h with h1
                injection h1 with h2 h3
                rw [← h2, ← h3]
                refine ⟨hc01, rfl, ?_⟩
                intro i hi
                rw [PTree.indices] at hi
                rw [List.mem_singleton.1 hi]
                exact Or.inl rfl
            | some b =>
                rw [hbest] at h
                dsimp only at h
                cases hcl : create_node fo b.data.1.1 b.data.1.2 (nd.depth + 1) cnt1 with
                | error e => rw [hcl] at h; cases h
                | ok rl =>
                    obtain ⟨ndl, cnt2⟩ := rl
                    rw [hcl] at h
                    dsimp only at h
                    cases hcr : create_node fo b.data.2.1 b.data.2.2 (nd.depth + 1) cnt2 with
                    | error e => rw [hcr] at h; cases h
                    | ok rr =>
                        obtain ⟨ndr, cnt3⟩ := rr
                        rw [hcr] at h
                        dsimp only at h
                        cases htl : split_traverse fo cfg fuel
                            { ndl with poly := b.polys.1 } cnt3 with
                        | error e => rw [htl] at h; cases h
                        | ok pl =>
                            obtain ⟨tl, cnt4⟩ := pl
                            rw [htl] at h
                            dsimp only at h
                            cases htr : split_traverse fo cfg fuel
                                { ndr with poly := b.polys.2 } cnt4 with
                            | error e => rw [htr] at h; cases h
                            | ok pr =>
                                obtain ⟨tr2, cnt5⟩ := pr
                                rw [htr] at h
                                injection h with h1
                                injection h1 with h2 h3
                                obtain ⟨_, _, _, hnl, hc2⟩ := create_node_ok hcl
                                obtain ⟨_, _, _, hnr, hc3⟩ := create_node_ok hcr
                                obtain ⟨hc34, hroot_l, hidx_l⟩ :=
                                  split_traverse_indices fuel _ cnt3 tl cnt4 htl
                                obtain ⟨hc45, hroot_r, hidx_r⟩ :=
                                  split_traverse_indices fuel _ cnt4 tr2 cnt5 htr
                                have hidxl : ({ ndl with poly := b.polys.1 } : NodeInfo P).index =
                                    cnt1 + 1 := by rw [hnl]
                                have hidxr : ({ ndr with poly := b.polys.2 } : NodeInfo P).index =
                                    cnt2 + 1 := by rw [hnr]
                                rw [← h2, ← h3]
                                refine ⟨by omega, rfl, ?_⟩
                                intro i hi
                                rw [PTree.indices] at hi
                                rcases List.mem_cons.1 hi with rfl | hi2
                                · exact Or.inl rfl
                                · refine Or.inr ?_
                                  rcases List.mem_append.1 hi2 with hil | hir
                                  · rcases hidx_l i hil with heq | ⟨hgt, hle⟩
                                    · rw [heq, hidxl]
                                      omega
                                    · omega
                                  · rcases hidx_r i hir with heq | ⟨hgt, hle⟩
                                    · rw [heq, hidxr]
                                      omega
                                    · omega
          · rw [if_neg hds] at h
            injection h with h1
            injection h1 with h2 h3
            rw [← h2, ← h3]
            refine ⟨hc01, rfl, ?_⟩
            intro i hi
            rw [PTree.indices] at hi
            rw [List.mem_singleton.1 hi]
            exact Or.inl rfl

/-- Claim C4: split search runs only behind the open depth gate
(`0 ≤ depth < max_depth`; the lower bound is automatic for `ℕ`), a node at or
past the gate is returned unsearched and unsplit, hence no node of a built
tree is deeper than `max_depth` and every leaf strictly above the gate is one
on which the splitter found no strictly improving feasible split. -/
theorem build_tree_depth_bound {P : Type} (fo : FitOracle P) (cfg : Config)
    (X : List Row) (y : List ℚ) (tr : PTree P) (cnt' : ℕ)
    (h : build_tree fo cfg X y = .ok (tr, cnt')) :
    (∀ a ∈ tr.depths, a ≤ cfg.max_depth) ∧
    (∀ info ∈ tr.leafInfos, info.depth < cfg.max_depth →
      ∃ (c0 : ℕ) (res0 : SplitResult P) (c1 : ℕ),
        splitter fo cfg info c0 = .ok (res0, c1) ∧ res0.did_split = false) ∧
    (∀ (nd : NodeInfo P) (cnt : ℕ), cfg.max_depth ≤ nd.depth →
      splitter fo cfg nd cnt = .ok (⟨false, nd.loss, none, nd.data.1.length⟩, cnt)) := by
  rw [build_tree] at h
  cases hc : create_node fo X y 0 0 with
  | error e => rw [hc] at h; cases h
  | ok rc =>
      obtain ⟨root, cnt0⟩ := rc
      rw [hc] at h
      dsimp only at h
      obtain ⟨_, _, _, hroot, _⟩ := create_node_ok hc
      have hrd : root.depth = 0 := by rw [hroot]
      refine ⟨?_, ?_, fun nd cnt hge => splitter_at_max_depth fo cfg nd cnt hge⟩
      · intro a ha
        rcases split_traverse_depths (cfg.max_depth + 1) root cnt0 tr cnt' h a ha with
          heq | ⟨_, hle⟩
        · rw [heq, hrd]
          exact Nat.zero_le _
        · exact hle
      · intro info hinfo hdep
        exact split_traverse_leaves (cfg.max_depth + 1) root cnt0 tr cnt'
          (by rw [hrd]; omega) h info hinfo hdep

/-- Claim C9: when the root data has fewer rows than `min_samples_leaf` and
the root's own fit succeeds, `fit` succeeds and the tree is the single leaf
holding the root's node dict (index 1, depth 0, data retained): every split
candidate is infeasible, so no split is attempted — and nothing fails fast. -/
theorem fit_small_root_single_leaf {P : Type} (fo : FitOracle P) (cfg : Config)
    (X : List Row) (y : List ℚ) (l0 : ℚ) (p0 : P)
    (hfo : fo X y = .ok (l0, p0)) (hsmall : X.length < cfg.min_samples_leaf) :
    fit_tree fo cfg X y = .ok (.leaf ⟨1, l0, p0, (X, y), X.length, 0⟩) := by
  rw [fit_tree, build_tree, create_node, fit_poly, hfo]
  dsimp only
  have hroot : ((⟨0 + 1, l0, p0, (X, y), X.length, 0⟩ : NodeInfo P)).data.1.length <
      cfg.min_samples_leaf := hsmall
  rw [split_traverse]
  rw [splitter_small_node fo cfg _ _ hroot]
  dsimp only
  rw [if_neg Bool.false_ne_true]
  rfl

/-- Amended claim C10: the parent keeps the index it received at creation; on
an accepted split both children are created and indexed immediately, left
before right and both before either subtree is traversed; the left subtree is
then fully traversed before the right subtree.  In index terms: parent below
left child, left child below right child, right child below every proper
descendant of the left subtree, and those below every proper descendant of the
right subtree. -/
theorem split_traverse_index_order {P : Type} (fo : FitOracle P) (cfg : Config)
    (fuel : ℕ) (nd : NodeInfo P) (cnt : ℕ) (i : ℕ) (loss : ℚ) (poly : P)
    (n depth j : ℕ) (t : ℚ) (l r : PTree P) (cnt' : ℕ)
    (hle : nd.index ≤ cnt)
    (h : split_traverse fo cfg fuel nd cnt = .ok (.node i loss poly n depth j t l r, cnt')) :
    i = nd.index ∧ i < l.rootIdx ∧ l.rootIdx < r.rootIdx ∧
    (∀ a ∈ l.indices, a ≠ l.rootIdx → r.rootIdx < a) ∧
    (∀ a ∈ l.indices, ∀ b2 ∈ r.indices, b2 ≠ r.rootIdx → a < b2) := by
  cases fuel with
  | zero =>
      rw [split_traverse] at h
      injection h with h1
      injection h1 with h2 h3
      exact PTree.noConfusion h2
  | succ fuel =>
      rw [split_traverse] at h
      cases hsp : splitter fo cfg nd cnt with
      | error e => rw [hsp] at h; cases h
      | ok rc =>
          obtain ⟨res, cnt1⟩ := rc
          rw [hsp] at h
          dsimp only at h
          have hc01 : cnt ≤ cnt1 := (splitter_ok_inv hsp).1
          by_cases hds : res.did_split = true
          · rw [if_pos hds] at h
            cases hbest : res.best with
            | none =>
                rw [hbest] at h
                injection h with h1
                injection h1 with h2 h3
                exact PTree.noConfusion h2
            | some b =>
                rw [hbest] at h
                dsimp only at h
                cases hcl : create_node fo b.data.1.1 b.data.1.2 (nd.depth + 1) cnt1 with
                | error e => rw [hcl] at h; cases h
                | ok rl =>
                    obtain ⟨ndl, cnt2⟩ := rl
                    rw [hcl] at h
                    dsimp only at h
                    cases hcr : create_node fo b.data.2.1 b.data.2.2 (nd.depth + 1) cnt2 with
                    | error e => rw [hcr] at h; cases h
                    | ok rr =>
                        obtain ⟨ndr, cnt3⟩ := rr
                        rw [hcr] at h
                        dsimp only at h
                        cases htl : split_traverse fo cfg fuel
                            { ndl with poly := b.polys.1 } cnt3 with
                        | error e => rw [htl] at h; cases h
                        | ok pl =>
                            obtain ⟨tl, cnt4⟩ := pl
                            rw [htl] at h
                            dsimp only at h
                            cases htr : split_traverse fo cfg fuel
                                { ndr with poly := b.polys.2 } cnt4 with
                            | error e => rw [htr] at h; cases h
                            | ok pr =>
                                obtain ⟨tr2, cnt5⟩ := pr
                                rw [htr] at h
                                injection h with h1
                                injection h1 with h2 h3
                                injection h2 with e1 e2 e3 e4 e5 e6 e7 e8 e9
                                obtain ⟨_, _, _, hnl, hc2⟩ := create_node_ok hcl
                                obtain ⟨_, _, _, hnr, hc3⟩ := create_node_ok hcr
                                obtain ⟨hc34, hroot_l, hidx_l⟩ :=
                                  split_traverse_indices fuel _ cnt3 tl cnt4 htl
                                obtain ⟨hc45, hroot_r, hidx_r⟩ :=
                                  split_traverse_indices fuel _ cnt4 tr2 cnt5 htr
                                have hidxl : ({ ndl with poly := b.polys.1 } :
                                    NodeInfo P).index = cnt1 + 1 := by rw [hnl]
                                have hidxr : ({ ndr with poly := b.polys.2 } :
                                    NodeInfo P).index = cnt2 + 1 := by rw [hnr]
                                subst e8
                                subst e9
                                have hrl : tl.rootIdx = cnt1 + 1 := by rw [hroot_l, hidxl]
                                have hrr : tr2.rootIdx = cnt2 + 1 := by rw [hroot_r, hidxr]
                                refine ⟨e1.symm, ?_, ?_, ?_, ?_⟩
                                · rw [hrl, ← e1]
                                  omega
                                · rw [hrl, hrr]
                                  omega
                                · intro a ha hane
                                  rcases hidx_l a ha with heq | ⟨hgt, _⟩
                                  · rw [hidxl, ← hrl] at heq
                                    exact absurd heq hane
                                  · rw [hrr]
                                    omega
                                · intro a ha b2 hb2 hbne
                                  have haub : a ≤ cnt4 := by
                                    rcases hidx_l a ha with heq | ⟨_, hle2⟩
                                    · rw [hidxl] at heq
                                      omega
                                    · exact hle2
                                  rcases hidx_r b2 hb2 with heq | ⟨hgt2, _⟩
                                  · rw [hidxr, ← hrr] at heq
                                    exact absurd heq hbne
                                  · omega
          · rw [if_neg hds] at h
            injection h with h1
            injection h1 with h2 h3
            exact PTree.noConfusion h2

/-- Folding `min` never exceeds the start value. -/
theorem foldl_min_le_init : ∀ (l : List ℚ) (a : ℚ), l.foldl min a ≤ a
  | [], a => le_refl a
  | b :: l, a => le_trans (foldl_min_le_init l (min a b)) (min_le_left a b)

/-- Folding `max` never drops below the start value. -/
theorem le_foldl_max_init : ∀ (l : List ℚ) (a : ℚ), a ≤ l.foldl max a
  | [], a => le_refl a
  | b :: l, a => le_trans (le_max_left a b) (le_foldl_max_init l (max a b))

/-- On a nonempty list, `np.min` is at most `np.max`. -/
theorem listMin_le_listMax : ∀ (l : List ℚ), l ≠ [] → listMin l ≤ listMax l
  | [], h => absurd rfl h
  | a :: l, _ => le_trans (foldl_min_le_init l a) (le_foldl_max_init l a)

/-- `np.linspace` returns exactly `num` points. -/
theorem linspace_length (a b : ℚ) (num : ℕ) : (linspace a b num).length = num := by
  rw [linspace]
  by_cases h0 : num = 0
  · rw [if_pos h0, h0]
    rfl
  · rw [if_neg h0]
    by_cases h1 : num = 1
    · rw [if_pos h1, h1]
      rfl
    · rw [if_neg h1, List.length_map, List.length_range]

/-- Closed form of the `i`-th `np.linspace` point (two or more points). -/
theorem linspace_getD (a b : ℚ) (num : ℕ) (i : ℕ) (h2 : 2 ≤ num) (hi : i < num) :
    (linspace a b num).getD i 0 = a + (i : ℚ) * ((b - a) / ((num : ℚ) - 1)) := by
  rw [linspace, if_neg (by omega), if_neg (by omega)]
  have hlen : i < (List.range num).length := by
    rw [List.length_range]
    exact hi
  rw [getD_map_lt (fun k : ℕ => a + (k : ℚ) * ((b - a) / ((num : ℚ) - 1))) 0 0
    (List.range num) i hlen]
  have hr : (List.range num).getD i 0 = i := by
    rw [List.getD_eq_getElem _ _ hlen]
    exact List.getElem_range i hlen
  rw [hr]

/-- `np.linspace` with `a ≤ b` is ascending. -/
theorem linspace_sorted (a b : ℚ) (num : ℕ) (hab : a ≤ b) :
    List.Sorted (· ≤ ·) (linspace a b num) := by
  rw [linspace]
  by_cases h0 : num = 0
  · rw [if_pos h0]
    exact List.sorted_nil
  · rw [if_neg h0]
    by_cases h1 : num = 1
    · rw [if_pos h1]
      exact List.sorted_singleton a
    · rw [if_neg h1]
      refine List.pairwise_map.2 ?_
      refine (List.pairwise_lt_range num).imp ?_
      intro i k hik
      have hs : (0 : ℚ) ≤ (b - a) / ((num : ℚ) - 1) := by
        apply div_nonneg (by linarith)
        have : (2 : ℚ) ≤ (num : ℚ) := by exact_mod_cast (by omega : 2 ≤ num)
        linarith
      have hik' : (i : ℚ) ≤ (k : ℚ) := by exact_mod_cast le_of_lt hik
      exact add_le_add_left (mul_le_mul_of_nonneg_right hik' hs) a

/-- The first `np.linspace` point is the left endpoint. -/
theorem linspace_head (a b : ℚ) (num : ℕ) (h1 : num ≠ 0) :
    (linspace a b num).getD 0 0 = a := by
  by_cases h2 : 2 ≤ num
  · rw [linspace_getD a b num 0 h2 (by omega)]
    simp
  · have hnum : num = 1 := by omega
    rw [hnum, linspace, if_neg one_ne_zero, if_pos rfl]
    rfl

/-- The last `np.linspace` point is the right endpoint (two or more points). -/
theorem linspace_last (a b : ℚ) (num : ℕ) (h2 : 2 ≤ num) :
    (linspace a b num).getD (num - 1) 0 = b := by
  rw [linspace_getD a b num (num - 1) h2 (by omega)]
  have hc : ((num - 1 : ℕ) : ℚ) = (num : ℚ) - 1 := by
    rw [Nat.cast_sub (by omega : 1 ≤ num), Nat.cast_one]
  rw [hc]
  have hne : (num : ℚ) - 1 ≠ 0 := by
    have : (2 : ℚ) ≤ (num : ℚ) := by exact_mod_cast h2
    intro heq
    linarith
  field_simp

/-- The `min(samples, n_rows)` clamp of the source, written with `if`. -/
theorem clamp_eq_min (s n : ℕ) : (if s > n then n else s) = min s n := by
  by_cases h : s > n
  · rw [if_pos h]
    exact (Nat.min_eq_right (le_of_lt h)).symm
  · rw [if_neg h]
    exact (Nat.min_eq_left (Nat.le_of_not_lt h)).symm

/-- Amended claim C6: under the exhaustive strategy the enumerated thresholds
are the column's entries sorted ascending with multiplicity — their value set
is the set of distinct column values, but a duplicated value is enumerated
once per occurrence, not once — and under the uniform strategy they are
`min(samples, n_rows)` evenly spaced values spanning the column's observed
min-to-max range (equal spacing, first point the minimum, last point the
maximum). -/
theorem threshold_enumeration (cfg : Config) (X : List Row) (j : ℕ) :
    (cfg.search = .exhaustive →
      List.Sorted (· ≤ ·) (sorted_thresholds cfg X j) ∧
      (sorted_thresholds cfg X j).Perm (column X j)) ∧
    (cfg.search = .uniform → X ≠ [] →
      sorted_thresholds cfg X j =
        linspace (listMin (column X j)) (listMax (column X j)) (min cfg.samples X.length) ∧
      (sorted_thresholds cfg X j).length = min cfg.samples X.length ∧
      (min cfg.samples X.length ≠ 0 →
        (sorted_thresholds cfg X j).getD 0 0 = listMin (column X j)) ∧
      (2 ≤ min cfg.samples X.length →
        (sorted_thresholds cfg X j).getD (min cfg.samples X.length - 1) 0 =
          listMax (column X j)) ∧
      (∀ i : ℕ, i + 1 < min cfg.samples X.length →
        (sorted_thresholds cfg X j).getD (i + 1) 0 - (sorted_thresholds cfg X j).getD i 0 =
          (listMax (column X j) - listMin (column X j)) /
            ((min cfg.samples X.length : ℚ) - 1))) := by
  constructor
  · intro hex
    constructor
    · exact List.sorted_insertionSort (· ≤ ·) (threshold_search cfg X j)
    · rw [sorted_thresholds, threshold_search, hex]
      exact List.perm_insertionSort (· ≤ ·) (column X j)
  · intro hun hX
    have hcol : column X j ≠ [] := by
      rw [column]
      intro hmap
      exact hX (List.map_eq_nil_iff.1 hmap)
    have hab := listMin_le_listMax (column X j) hcol
    have hclen : (column X j).length = X.length := List.length_map X _
    have hts : threshold_search cfg X j =
        linspace (listMin (column X j)) (listMax (column X j)) (min cfg.samples X.length) := by
      rw [threshold_search, hun]
      dsimp only
      rw [clamp_eq_min, hclen]
    have hst : sorted_thresholds cfg X j =
        linspace (listMin (column X j)) (listMax (column X j)) (min cfg.samples X.length) := by
      rw [sorted_thresholds, hts]
      exact List.Sorted.insertionSort_eq (linspace_sorted _ _ _ hab)
    refine ⟨hst, ?_, ?_, ?_, ?_⟩
    · rw [hst, linspace_length]
    · intro h0
      rw [hst, linspace_head _ _ _ h0]
    · intro h2
      rw [hst, linspace_last _ _ _ h2]
    · intro i hi
      rw [hst, linspace_getD _ _ _ (i + 1) (by omega) hi,
        linspace_getD _ _ _ i (by omega) (by omega)]
      push_cast
      ring

/-!
### Witnesses and counterexamples on concrete data

The Batteries rational arithmetic operations are `@[irreducible]`; they are
made semireducible locally so that `decide` can evaluate the engine on the
concrete demonstration data above.
-/

section ConcreteEvaluation

attribute [local semireducible] Rat.add Rat.mul Rat.inv Rat.sub Rat.ofScientific

/-- Witness for C1 on the demonstration data: the accepted split at the root
strictly improves (4 < 16), a tie (weighted loss 1 equals the incumbent best)
leaves the incumbent state untouched, and the candidate enumeration over one
feature is ordered. -/
theorem splitter_strict_improvement_witness :
    demoSplitRes.loss < demoRoot.loss ∧
    process_candidate demoFo 1 2 [[0], [1]] [0, 0]
      ((⟨false, 1, none⟩ : SplitState Unit), 0) (0, 0) =
      .ok ((⟨false, 1, none⟩ : SplitState Unit), 2) ∧
    (candidates demoCfg demoX 1).Pairwise
      (fun c1 c2 => c1.1 < c2.1 ∨ (c1.1 = c2.1 ∧ c1.2 ≤ c2.2)) :=
  ⟨(splitter_strict_improvement demoFo demoCfg).1 demoRoot 2 demoSplitRes 8
      (by decide) (by decide),
   (splitter_strict_improvement demoFo demoCfg).2.1 1 2 [[0], [1]] [0, 0]
      ⟨false, 1, none⟩ 0 (0, 0) 1 1 () () (by decide) (by decide) (by decide) (by decide)
      (by decide),
   (splitter_strict_improvement demoFo demoCfg).2.2 demoX 1⟩

/-- Witness for C3 on the demonstration data: the root's accepted split stores
two sides of two rows each (≥ 1), and the infeasible candidate at threshold 3
(empty right side) is skipped with state and counter untouched. -/
theorem splitter_leaf_size_feasibility_witness :
    (∃ b : BestSplit Unit, demoSplitRes.best = some b ∧
      1 ≤ b.data.1.1.length ∧ 1 ≤ b.data.2.1.length) ∧
    process_candidate zeroFo 1 4 demoX demoY
      ((⟨false, 16, none⟩ : SplitState Unit), 5) (0, 3) =
      .ok ((⟨false, 16, none⟩ : SplitState Unit), 5) :=
  ⟨(splitter_leaf_size_feasibility demoFo demoCfg).1 demoRoot 2 demoSplitRes 8
      (by decide) (by decide),
   (splitter_leaf_size_feasibility demoFo demoCfg).2 zeroFo 1 4 demoX demoY
      ⟨false, 16, none⟩ 5 (0, 3) (by decide)⟩

/-- Witness for C4: the demonstration tree's depth 2 respects the bound, the
single-leaf build of a small root is a leaf with no improving split, and a
node at depth 2 is returned unsearched. -/
theorem build_tree_depth_bound_witness :
    (2 : ℕ) ≤ demoCfg.max_depth ∧
    (∃ (c0 : ℕ) (res0 : SplitResult Unit) (c1 : ℕ),
      splitter zeroFo ⟨2, 10, .exhaustive, 10⟩ ⟨1, 0, (), ([[0]], [0]), 1, 0⟩ c0 =
        .ok (res0, c1) ∧ res0.did_split = false) ∧
    splitter demoFo demoCfg ⟨15, 1, (), ([[0]], [0]), 1, 2⟩ 18 =
      .ok (⟨false, 1, none, 1⟩, 18) :=
  ⟨(build_tree_depth_bound demoFo demoCfg demoX demoY demoTree 24 (by decide)).1
      2 (by decide),
   (build_tree_depth_bound zeroFo ⟨2, 10, .exhaustive, 10⟩ [[0]] [0]
      (.leaf ⟨1, 0, (), ([[0]], [0]), 1, 0⟩) 2 (by decide)).2.1
      ⟨1, 0, (), ([[0]], [0]), 1, 0⟩ (by decide) (by decide),
   (build_tree_depth_bound demoFo demoCfg demoX demoY demoTree 24 (by decide)).2.2
      ⟨15, 1, (), ([[0]], [0]), 1, 2⟩ 18 (by decide)⟩

/-- Counterexample for C5 as stated: the root of `[[0], [1]]` fits fine under
`failFo`, the only feasible candidates split into one-row sides whose fits
fail, and instead of skipping those candidates and keeping the root a leaf,
the whole `fit` crashes with the fit failure. -/
theorem fit_crash_on_candidate_failure_cex :
    failFo [[0], [1]] [0, 0] = .ok (4, ()) ∧
    fit_tree failFo demoCfg [[0], [1]] [0, 0] = .error .fitFail :=
  ⟨by decide, by decide⟩

/-- Witness for the amended C5: a feasible candidate whose left (resp. right)
fit fails propagates the failure out of the candidate step, and a failing
split search aborts the traversal. -/
theorem candidate_fit_failure_propagates_witness :
    process_candidate failFo 1 2 [[0], [1]] [0, 0]
      ((⟨false, 4, none⟩ : SplitState Unit), 2) (0, 0) = .error .fitFail ∧
    process_candidate failFo 1 3 [[0], [1], [2]] [0, 0, 0]
      ((⟨false, 9, none⟩ : SplitState Unit), 0) (0, 1) = .error .fitFail ∧
    split_traverse failFo demoCfg 1 ⟨1, 4, (), ([[0], [1]], [0, 0]), 2, 0⟩ 2 =
      .error .fitFail :=
  ⟨(candidate_fit_failure_propagates failFo demoCfg).1 1 2 [[0], [1]] [0, 0]
      ⟨false, 4, none⟩ 2 (0, 0) .fitFail (by decide) (by decide) (by decide),
   (candidate_fit_failure_propagates failFo demoCfg).2.1 1 3 [[0], [1], [2]] [0, 0, 0]
      ⟨false, 9, none⟩ 0 (0, 1) 4 () .fitFail (by decide) (by decide) (by decide)
      (by decide),
   (candidate_fit_failure_propagates failFo demoCfg).2.2 0
      ⟨1, 4, (), ([[0], [1]], [0, 0]), 2, 0⟩ 2 .fitFail (by decide)⟩

/-- Counterexample for C6 as stated: on a column with a duplicated value the
exhaustive strategy enumerates the value twice, not once as "exactly the
distinct values" would require. -/
theorem exhaustive_thresholds_duplicates_cex :
    sorted_thresholds demoCfg [[1], [1]] 0 = [1, 1] ∧
    distinct_ascending (column [[1], [1]] 0) = [1] ∧
    sorted_thresholds demoCfg [[1], [1]] 0 ≠ distinct_ascending (column [[1], [1]] 0) :=
  ⟨by decide, by decide, by decide⟩

/-- Witness for the amended C6: exhaustive enumeration on the demonstration
data is sorted and a permutation of the column; uniform enumeration on
`[[0], [2]]` with three requested samples is exactly `linspace 0 2 (min 3 2)`. -/
theorem threshold_enumeration_witness :
    (List.Sorted (· ≤ ·) (sorted_thresholds demoCfg demoX 0) ∧
      (sorted_thresholds demoCfg demoX 0).Perm (column demoX 0)) ∧
    sorted_thresholds ⟨2, 1, .uniform, 3⟩ [[0], [2]] 0 =
      linspace (listMin (column [[0], [2]] 0)) (listMax (column [[0], [2]] 0)) (min 3 2) :=
  ⟨(threshold_enumeration demoCfg demoX 0).1 rfl,
   ((threshold_enumeration ⟨2, 1, .uniform, 3⟩ [[0], [2]] 0).2 rfl (by decide)).1⟩

/-- Witness for C7 on the demonstration tree: the batch result is the row map,
a query routed by hand agrees with `predict_node`, and the first batch entry
is the routed evaluation of the first row. -/
theorem predict_routes_and_preserves_order_witness :
    predict (fun _ _ => (5 : ℚ)) (some demoTree) [[0], [1]] =
      .ok ([[0], [1]].map (fun x => predict_node (fun _ _ => (5 : ℚ)) demoTree x)) ∧
    predict_node (fun _ _ => (5 : ℚ)) demoTree [0] =
      (fun _ _ => (5 : ℚ)) (route_leaf demoTree [0]).poly [0] ∧
    ([[0], [1]].map (fun x => predict_node (fun _ _ => (5 : ℚ)) demoTree x)).getD 0 0 =
      (fun _ _ => (5 : ℚ)) (route_leaf demoTree ([[0], [1]].getD 0 [])).poly
        ([[0], [1]].getD 0 []) :=
  ⟨(predict_routes_and_preserves_order (fun _ _ => (5 : ℚ)) demoTree [[0], [1]]).1,
   (predict_routes_and_preserves_order (fun _ _ => (5 : ℚ)) demoTree [[0], [1]]).2.1 [0],
   (predict_routes_and_preserves_order (fun _ _ => (5 : ℚ)) demoTree [[0], [1]]).2.2
      0 (by decide)⟩

/-- Witness for C9: with the constant-zero oracle and ten required samples per
leaf, fitting a single row yields the single-leaf tree of that row. -/
theorem fit_small_root_single_leaf_witness :
    fit_tree zeroFo ⟨2, 10, .exhaustive, 10⟩ [[0]] [0] =
      .ok (.leaf ⟨1, 0, (), ([[0]], [0]), 1, 0⟩) :=
  fit_small_root_single_leaf zeroFo ⟨2, 10, .exhaustive, 10⟩ [[0]] [0] 0 ()
    (by decide) (by decide)

/-- Counterexample for C10 as stated: in the demonstration build the left
subtree holds indices 9, 15, 17 while the right child already has index 11 —
the counter that assigns indices is monotone, so index 15 being assigned after
index 11 shows the right child was created before the left child's subtree was
completed, contradicting the claimed construction order. -/
theorem build_index_order_cex :
    ((build_tree demoFo demoCfg demoX demoY).map (fun p => p.1.leftIdxList)).toOption =
      some [9, 15, 17] ∧
    ((build_tree demoFo demoCfg demoX demoY).map (fun p => p.1.rightRootIdx)).toOption =
      some 11 ∧
    ¬ ((15 : ℕ) < 11) :=
  ⟨by decide, by decide, by decide⟩

/-- Witness for the amended C10 on the demonstration build: parent index 1,
left child 9, right child 11, left proper descendants 15 and 17 above the
right child's index, right proper descendants 21 and 23 above all of them. -/
theorem split_traverse_index_order_witness :
    (1 : ℕ) = demoRoot.index ∧ 1 < demoLeft.rootIdx ∧
    demoLeft.rootIdx < demoRight.rootIdx ∧
    (∀ a ∈ demoLeft.indices, a ≠ demoLeft.rootIdx → demoRight.rootIdx < a) ∧
    (∀ a ∈ demoLeft.indices, ∀ b2 ∈ demoRight.indices, b2 ≠ demoRight.rootIdx → a < b2) :=
  split_traverse_index_order demoFo demoCfg 3 demoRoot 2 1 16 () 4 0 0 1
    demoLeft demoRight 24 (by decide) (by decide)

end ConcreteEvaluation

end PolyTreeSpec
